import Mathlib

/-!
Verification of the slopetools factor-of-safety solver suite and the
ground-surface extraction algorithm.

The per-slice table consumed by the solvers (a pandas DataFrame in the
source) is embedded as a list of records plus two flags recording whether
the optional reinforcement columns are present.  Vectorised numpy
arithmetic becomes elementwise `List.map` followed by `List.sum`; the
convergence loops become fuel-indexed structural recursion where the fuel
is `max_iter`.  Real (float) arithmetic is embedded as arithmetic on `ℝ`.
Python code paths that raise are embedded as `Except`/`Option` results.
-/

noncomputable section

namespace Slope

/-- One row of the slice table: the per-slice quantities consumed by the
solvers.  `alpha` and `phi` are stored in degrees, as in the source. -/
structure Slice where
  alpha : ℝ
  w : ℝ
  c : ℝ
  phi : ℝ
  u : ℝ
  dl : ℝ
  x_c : ℝ
  y_cb : ℝ
  shear_reinf : ℝ
  normal_reinf : ℝ

/-- The slice table: the rows plus flags recording whether the optional
reinforcement columns `shear_reinf` / `normal_reinf` are present in the
DataFrame. -/
structure SliceTable where
  rows : List Slice
  hasShear : Bool
  hasNormal : Bool

/-- `np.radians` / `math.radians`. -/
def rad (d : ℝ) : ℝ := d * Real.pi / 180

/-- `math.degrees`. -/
def degreesOf (r : ℝ) : ℝ := r * 180 / Real.pi

/-- `df.get('shear_reinf', 0)` without `.values`: the column when present,
else the scalar 0 broadcast over the rows. -/
def getShear (t : SliceTable) (s : Slice) : ℝ := if t.hasShear then s.shear_reinf else 0

/-- `df.get('normal_reinf', 0)` without `.values`: the column when present,
else the scalar 0 broadcast over the rows. -/
def getNormal (t : SliceTable) (s : Slice) : ℝ := if t.hasNormal then s.normal_reinf else 0

/-- The factor of safety as returned by `oms`: either a finite float or
`float('inf')`. -/
inductive FSResult where
  | fin : ℝ → FSResult
  | inf : FSResult

/-- Error message produced by `df.get('shear_reinf', 0).values` when the
column is absent and `.values` is taken on the scalar default. -/
def attrErr : String := "AttributeError: int object has no attribute values"

/-- `oms` per-slice base normal force
`N = W*cos(alpha) - u*dl*cos(alpha)^2 + normal_reinf` (raw column values:
`oms` reads the columns through `.values`, which requires them present). -/
def NfRaw (s : Slice) : ℝ :=
  s.w * Real.cos (rad s.alpha) - s.u * s.dl * Real.cos (rad s.alpha) ^ 2 + s.normal_reinf

/-- `oms` numerator sum `sum(c*dl + N*tan(phi))`. -/
def omsNum (t : SliceTable) : ℝ :=
  (t.rows.map (fun s => s.c * s.dl + NfRaw s * Real.tan (rad s.phi))).sum

/-- `oms` denominator sum `sum(W*sin(alpha) - shear_reinf)`. -/
def omsDenom (t : SliceTable) : ℝ :=
  (t.rows.map (fun s => s.w * Real.sin (rad s.alpha) - s.shear_reinf)).sum

/-- `solve.oms`.  The source fetches both optional reinforcement columns
via `df.get(col, 0).values`; when a column is absent `df.get` returns the
scalar `0` and `.values` raises `AttributeError`, embedded as `.error`.
With both columns present it returns `(FS, N)` with
`FS = num/den if den != 0 else float('inf')`. -/
def oms (t : SliceTable) : Except String (FSResult × List ℝ) :=
  if t.hasShear && t.hasNormal then
    .ok (if omsDenom t ≠ 0 then FSResult.fin (omsNum t / omsDenom t) else FSResult.inf,
         t.rows.map NfRaw)
  else .error attrErr

/-- `bishop` per-slice base normal force; `bishop` reads the reinforcement
columns through `df.get(col, 0)` (no `.values`), so absence defaults to 0. -/
def NfGet (t : SliceTable) (s : Slice) : ℝ :=
  s.w * Real.cos (rad s.alpha) - s.u * s.dl * Real.cos (rad s.alpha) ^ 2 + getNormal t s

/-- `bishop` per-slice numerator `num = c*dl + N*tan(phi)` (fixed across
iterations). -/
def bNum (t : SliceTable) (s : Slice) : ℝ :=
  s.c * s.dl + NfGet t s * Real.tan (rad s.phi)

/-- `bishop` fixed denominator `sum(W*sin(alpha) - shear_reinf)`. -/
def bDenom (t : SliceTable) : ℝ :=
  (t.rows.map (fun s => s.w * Real.sin (rad s.alpha) - getShear t s)).sum

/-- One `bishop` iteration: `F_calc` as a function of `F_guess`. -/
def bStep (t : SliceTable) (Fg : ℝ) : ℝ :=
  (t.rows.map (fun s =>
    bNum t s /
      (Real.cos (rad s.alpha) + Real.sin (rad s.alpha) * Real.tan (rad s.phi) / Fg))).sum /
    bDenom t

/-- The `bishop` fixed-point loop.  Each fuel step is one `for` iteration;
exhausted fuel returns the last computed `F_calc` (threaded as `Fg`) with
`converge = False`. -/
def bishopLoop (t : SliceTable) (tol : ℝ) : ℕ → ℝ → ℝ × Bool
  | 0, Fg => (Fg, false)
  | n + 1, Fg =>
    let Fc := bStep t Fg
    if |Fc - Fg| < tol then (Fc, true) else bishopLoop t tol n Fc

/-- `solve.bishop`.  With `max_iter = 0` the Python `return F_calc` raises
`NameError` (`F_calc` is never bound), embedded as `none`; otherwise the
loop runs starting from `F_guess = 1.0`. -/
def bishop (t : SliceTable) (tol : ℝ) (maxIter : ℕ) : Option (ℝ × List ℝ × Bool) :=
  if maxIter = 0 then none
  else
    let r := bishopLoop t tol maxIter 1
    some (r.1, t.rows.map (NfGet t), r.2)

/-- The sequence of `bishop` iterates: `bSeq 0 = 1.0` (the initial guess)
and `bSeq (i+1)` is the `F_calc` computed by iteration `i+1`. -/
def bSeq (t : SliceTable) : ℕ → ℝ
  | 0 => 1
  | n + 1 => bStep t (bSeq t n)

/-- `np.mean`. -/
def meanList (l : List ℝ) : ℝ := l.sum / l.length

/-- `np.clip`. -/
def clip (v lo hi : ℝ) : ℝ := min (max v lo) hi

/-- One iteration of `spencer`: given `(F, beta)` produce
`(F_new, beta_new)`.  The first resisting-force numerator (built from
`effective_W`, which distributes `normal_reinf`) is computed and then
immediately overwritten by the reinforcement-ignoring one, exactly as in
the source; both dead bindings are kept. -/
def sStep (t : SliceTable) (F beta : ℝ) : ℝ × ℝ :=
  let sinb := Real.sin beta
  let cosb := Real.cos beta
  let denomDead := t.rows.map (fun s =>
    Real.cos (rad s.alpha) * cosb + Real.sin (rad s.alpha) * sinb * Real.tan (rad s.phi))
  let effW := t.rows.map (fun s => s.w + getNormal t s / Real.cos (rad s.alpha))
  let numDead := (t.rows.zip effW).map (fun p =>
    p.1.c * p.1.dl * cosb +
      (p.2 - p.1.u * p.1.dl) *
        (Real.cos (rad p.1.alpha) * cosb - Real.sin (rad p.1.alpha) * sinb) *
        Real.tan (rad p.1.phi))
  let num := t.rows.map (fun s =>
    s.c * s.dl * cosb +
      (s.w - s.u * s.dl) *
        (Real.cos (rad s.alpha) * cosb - Real.sin (rad s.alpha) * sinb) *
        Real.tan (rad s.phi))
  let Fnew := num.sum /
    (t.rows.map (fun s => s.w * Real.sin (rad s.alpha) - getShear t s)).sum
  let sinbNew := (t.rows.zip num).map (fun p =>
    (p.1.w * Real.sin (rad p.1.alpha) -
      p.2 / Fnew * Real.sin (rad p.1.alpha) * Real.tan (rad p.1.phi)) / p.1.w)
  let betaNew := Real.arcsin (clip (meanList sinbNew) (-1) 1)
  (Fnew, betaNew)

/-- The `spencer` loop.  On joint convergence it returns the freshly
computed pair `(F_new, degrees(beta_new))`; exhausted fuel returns the
last iterates with no convergence signal. -/
def spencerLoop (t : SliceTable) (tol : ℝ) : ℕ → ℝ → ℝ → ℝ × ℝ
  | 0, F, beta => (F, degreesOf beta)
  | n + 1, F, beta =>
    let p := sStep t F beta
    if |p.1 - F| < tol ∧ |p.2 - beta| < tol then (p.1, degreesOf p.2)
    else spencerLoop t tol n p.1 p.2

/-- `solve.spencer`: initial guesses `F = 1.0`, `beta = 0.0`. -/
def spencer (t : SliceTable) (tol : ℝ) (maxIter : ℕ) : ℝ × ℝ :=
  spencerLoop t tol maxIter 1 0

/-- The table with every `normal_reinf` entry replaced by zero and the
column-presence flag set to `b`. -/
def zeroNormalTable (t : SliceTable) (b : Bool) : SliceTable :=
  ⟨t.rows.map (fun s => { s with normal_reinf := 0 }), t.hasShear, b⟩

/-- One iteration of `janbu_corrected`: given `(F, lambda)` produce
`(F_new, lambda_new)` where `m = 1 + lambda*tan(phi)/F`,
`N = W*cos(alpha) + normal_reinf`, `S = c*dl + (N - u*dl)*tan(phi)/F`,
`R = S/m`, `T = W*sin(alpha) - shear_reinf`. -/
def jcStep (t : SliceTable) (F lam : ℝ) : ℝ × ℝ :=
  let R := t.rows.map (fun s =>
    (s.c * s.dl +
        (s.w * Real.cos (rad s.alpha) + getNormal t s - s.u * s.dl) *
          Real.tan (rad s.phi) / F) /
      (1 + lam * Real.tan (rad s.phi) / F))
  let Tsum := (t.rows.map (fun s => s.w * Real.sin (rad s.alpha) - getShear t s)).sum
  let Fnew := R.sum / Tsum
  let lamNew := ((t.rows.zip R).map (fun p => p.2 * Real.sin (rad p.1.alpha))).sum /
    ((t.rows.zip R).map (fun p => p.2 * Real.cos (rad p.1.alpha))).sum
  (Fnew, lamNew)

/-- The `janbu_corrected` loop.  On joint convergence the source `break`s
before the `F = F_new` / `lambda_ = lambda_new` updates, so the values
returned are the ones used in the converged iteration, not the fresh
ones. -/
def jcLoop (t : SliceTable) (tol : ℝ) : ℕ → ℝ → ℝ → ℝ × ℝ × Bool
  | 0, F, lam => (F, lam, false)
  | n + 1, F, lam =>
    let p := jcStep t F lam
    if |p.1 - F| < tol ∧ |p.2 - lam| < tol then (F, lam, true)
    else jcLoop t tol n p.1 p.2

/-- `solve.janbu_corrected`: initial `F = 1.0`, `lambda = 0.0`. -/
def janbu_corrected (t : SliceTable) (tol : ℝ) (maxIter : ℕ) : ℝ × ℝ × Bool :=
  jcLoop t tol maxIter 1 0

/-- `np.linspace a b n`. -/
def linspace (a b : ℝ) : ℕ → List ℝ
  | 0 => []
  | 1 => [a]
  | Nat.succ (Nat.succ m) =>
    (List.range (m + 2)).map (fun (i : ℕ) => a + (b - a) * (i : ℝ) / ((m : ℝ) + 1))

/-- One iteration of `morgenstern_price` with inter-slice shape values
`psi` (one per slice): `m = 1 + lambda*psi*tan(phi)/F`, the same `N`, `S`,
`R`, `T` as `janbu_corrected`, and
`lambda_new = num/den if den != 0 else 0.0` with
`num = sum(R*psi*sin(alpha))`, `den = sum(R*psi*cos(alpha))`. -/
def mpStep (t : SliceTable) (psi : List ℝ) (F lam : ℝ) : ℝ × ℝ :=
  let R := (t.rows.zip psi).map (fun p =>
    (p.1.c * p.1.dl +
        (p.1.w * Real.cos (rad p.1.alpha) + getNormal t p.1 - p.1.u * p.1.dl) *
          Real.tan (rad p.1.phi) / F) /
      (1 + lam * p.2 * Real.tan (rad p.1.phi) / F))
  let Tsum := (t.rows.map (fun s => s.w * Real.sin (rad s.alpha) - getShear t s)).sum
  let Fnew := R.sum / Tsum
  let numl := ((t.rows.zip psi).zip R).map (fun p =>
    p.2 * p.1.2 * Real.sin (rad p.1.1.alpha))
  let denl := ((t.rows.zip psi).zip R).map (fun p =>
    p.2 * p.1.2 * Real.cos (rad p.1.1.alpha))
  let lamNew := if denl.sum ≠ 0 then numl.sum / denl.sum else 0
  (Fnew, lamNew)

/-- The `morgenstern_price` loop: same convergence/`break` structure as
`janbu_corrected`. -/
def mpLoop (t : SliceTable) (psi : List ℝ) (tol : ℝ) : ℕ → ℝ → ℝ → ℝ × ℝ × Bool
  | 0, F, lam => (F, lam, false)
  | n + 1, F, lam =>
    let p := mpStep t psi F lam
    if |p.1 - F| < tol ∧ |p.2 - lam| < tol then (F, lam, true)
    else mpLoop t psi tol n p.1 p.2

/-- `solve.morgenstern_price`: the shape function is sampled at
`np.linspace(0, 1, n)` with `n` the number of slices. -/
def morgenstern_price (t : SliceTable) (f : ℝ → ℝ) (tol : ℝ) (maxIter : ℕ) : ℝ × ℝ × Bool :=
  let psi := (linspace 0 1 t.rows.length).map f
  mpLoop t psi tol maxIter 1 0

/-! ### Ground-surface extraction (`utils.build_ground_surface`, duplicated
verbatim in `fileio.build_ground_surface`).

Shapely geometry on polylines is embedded directly: `LineString.length` is
the sum of segment lengths, `project` returns the arc-length position of
the point of the polyline nearest (in Euclidean distance) to the argument
(first minimiser on ties), and `interpolate` walks the polyline to the
given arc length.  Constructing a `LineString` from a single coordinate
raises in shapely; that path is embedded as an `Except.error`. -/

/-- A 2-D point. -/
abbrev Pt := ℝ × ℝ

/-- Euclidean length of the segment from `a` to `b`. -/
def segLen (a b : Pt) : ℝ := Real.sqrt ((b.1 - a.1) ^ 2 + (b.2 - a.2) ^ 2)

/-- `LineString.length`: total polyline length. -/
def polyLen : List Pt → ℝ
  | a :: b :: rest => segLen a b + polyLen (b :: rest)
  | _ => 0

/-- Parameter in `[0, 1]` of the point of segment `a`-`b` nearest to `p`
(the clamped orthogonal-projection parameter). -/
def segParam (a b p : Pt) : ℝ :=
  clip (((p.1 - a.1) * (b.1 - a.1) + (p.2 - a.2) * (b.2 - a.2)) /
      ((b.1 - a.1) ^ 2 + (b.2 - a.2) ^ 2)) 0 1

/-- Point at parameter `tp` along segment `a`-`b`. -/
def segPoint (a b : Pt) (tp : ℝ) : Pt :=
  (a.1 + tp * (b.1 - a.1), a.2 + tp * (b.2 - a.2))

/-- Distance from `p` to the nearest point of segment `a`-`b`. -/
def segDist (a b p : Pt) : ℝ :=
  Real.sqrt ((p.1 - (segPoint a b (segParam a b p)).1) ^ 2 +
    (p.2 - (segPoint a b (segParam a b p)).2) ^ 2)

/-- Walk the segments accumulating `(best distance, best arc position)`;
a strictly smaller distance replaces the running best, so the first
minimiser wins on ties. -/
def projAux (p : Pt) : List Pt → ℝ → Option (ℝ × ℝ) → Option (ℝ × ℝ)
  | a :: b :: rest, off, best =>
    let d := segDist a b p
    let pr := off + segParam a b p * segLen a b
    let best2 := match best with
      | none => some (d, pr)
      | some q => if d < q.1 then (d, pr) else q
    projAux p (b :: rest) (off + segLen a b) best2
  | _, _, best => best

/-- `LineString.project(Point p)`: arc-length position along the polyline
of the point nearest to `p`. -/
def projectLS (l : List Pt) (p : Pt) : ℝ :=
  match projAux p l 0 none with
  | some q => q.2
  | none => 0

/-- `LineString.interpolate(s)`: the point at arc length `s` along the
polyline, clamped to the final vertex past the total length. -/
def interpLS : List Pt → ℝ → Pt
  | a :: b :: rest, s =>
    if s ≤ segLen a b then
      (if segLen a b = 0 then a else segPoint a b (s / segLen a b))
    else interpLS (b :: rest) (s - segLen a b)
  | [a], _ => a
  | [], _ => (0, 0)

/-- The Python sort key `(x, -y)` as a total preorder: `p` precedes `q`
when `p.x < q.x`, or `p.x = q.x` and `p.y ≥ q.y`. -/
def ptKeyLe (p q : Pt) : Prop := p.1 < q.1 ∨ (p.1 = q.1 ∧ q.2 ≤ p.2)

/-- Python tuple comparison `(x, y) ≤ (x', y')` used by the final
`sorted(top_candidates.items())`. -/
def pairLe (p q : Pt) : Prop := p.1 < q.1 ∨ (p.1 = q.1 ∧ p.2 ≤ q.2)

instance : DecidableRel ptKeyLe := fun p q => by unfold ptKeyLe; infer_instance

instance : DecidableRel pairLe := fun p q => by unfold pairLe; infer_instance

instance : IsTotal Pt ptKeyLe where
  total p q := by
    rcases lt_trichotomy p.1 q.1 with h | h | h
    · exact Or.inl (Or.inl h)
    · rcases le_total q.2 p.2 with h2 | h2
      · exact Or.inl (Or.inr ⟨h, h2⟩)
      · exact Or.inr (Or.inr ⟨h.symm, h2⟩)
    · exact Or.inr (Or.inl h)

instance : IsTrans Pt ptKeyLe where
  trans a b c hab hbc := by
    rcases hab with h1 | ⟨e1, y1⟩
    · rcases hbc with h2 | ⟨e2, y2⟩
      · exact Or.inl (h1.trans h2)
      · exact Or.inl (e2 ▸ h1)
    · rcases hbc with h2 | ⟨e2, y2⟩
      · exact Or.inl (e1 ▸ h2)
      · exact Or.inr ⟨e1.trans e2, y2.trans y1⟩

instance : IsTotal Pt pairLe where
  total p q := by
    rcases lt_trichotomy p.1 q.1 with h | h | h
    · exact Or.inl (Or.inl h)
    · rcases le_total p.2 q.2 with h2 | h2
      · exact Or.inl (Or.inr ⟨h, h2⟩)
      · exact Or.inr (Or.inr ⟨h.symm, h2⟩)
    · exact Or.inr (Or.inl h)

instance : IsTrans Pt pairLe where
  trans a b c hab hbc := by
    rcases hab with h1 | ⟨e1, y1⟩
    · rcases hbc with h2 | ⟨e2, y2⟩
      · exact Or.inl (h1.trans h2)
      · exact Or.inl (e2 ▸ h1)
    · rcases hbc with h2 | ⟨e2, y2⟩
      · exact Or.inl (e1 ▸ h2)
      · exact Or.inr ⟨e1.trans e2, y1.trans y2⟩

/-- Step 1 of the builder: `sorted(set(all points), key = (x, -y))`. -/
def allPoints (lines : List (List Pt)) : List Pt :=
  List.insertionSort ptKeyLe lines.flatten.dedup

/-- Python `dict` lookup on an insertion-ordered association list. -/
def alook : List Pt → ℝ → Option ℝ
  | [], _ => none
  | q :: d, x => if q.1 = x then some q.2 else alook d x

/-- Python `dict` value update for an existing key. -/
def aset : List Pt → ℝ → ℝ → List Pt
  | [], _, _ => []
  | q :: d, x, y => if q.1 = x then (x, y) :: d else q :: aset d x y

/-- One step of building `top_candidates`:
`if x not in tc or y > tc[x]: tc[x] = y`. -/
def updTC (d : List Pt) (p : Pt) : List Pt :=
  match alook d p.1 with
  | none => d ++ [p]
  | some y0 => if y0 < p.2 then aset d p.1 p.2 else d

/-- Step 2 of the builder: the `top_candidates` dict as an association
list in insertion order. -/
def tcFold (pts : List Pt) : List Pt := pts.foldl updTC []

/-- `sorted(top_candidates.items())`: the per-`x` maxima sorted by the
`(x, y)` tuple order. -/
def candidates (lines : List (List Pt)) : List Pt :=
  List.insertionSort pairLe (tcFold (allPoints lines))

/-- shapely's error when a `LineString` is built from one coordinate. -/
def oneCoordErr : String := "LineString must contain at least two coordinates"

/-- The fixed elevation tolerance `1e-6` of the domination check. -/
def surfTol : ℝ := 1 / 1000000

/-- Step 3 inner loop for one candidate `(x, y)`: walk the profile lines
in order; constructing a one-point `LineString` raises; zero-length lines
are skipped; a projection falling exactly on either endpoint is skipped;
the first line whose interpolated point at the projection exceeds
`y + 1e-6` discards the candidate (`break`). -/
def checkLines (x y : ℝ) : List (List Pt) → Except String Bool
  | [] => .ok true
  | l :: ls =>
    if l.length = 1 then .error oneCoordErr
    else if polyLen l = 0 then checkLines x y ls
    else if projectLS l (x, 0) = 0 ∨ projectLS l (x, 0) = polyLen l then checkLines x y ls
    else if y + surfTol < (interpLS l (projectLS l (x, 0))).2 then .ok false
    else checkLines x y ls

/-- Step 3 outer loop: keep the candidates that survive `checkLines`,
propagating any shapely construction error. -/
def keptPoints (lines : List (List Pt)) : List Pt → Except String (List Pt)
  | [] => .ok []
  | p :: ps =>
    match checkLines p.1 p.2 lines with
    | .error e => .error e
    | .ok true =>
      match keptPoints lines ps with
      | .error e => .error e
      | .ok r => .ok (p :: r)
    | .ok false => keptPoints lines ps

/-- `build_ground_surface`: the survivors when at least two remain, else
the explicit empty line. -/
def buildGroundSurface (lines : List (List Pt)) : Except String (List Pt) :=
  match keptPoints lines (candidates lines) with
  | .error e => .error e
  | .ok pts => .ok (if 2 ≤ pts.length then pts else [])

/-- A profile line dominates the candidate `(x, y)` when it is not of zero
length, the projection of `(x, 0)` onto it is strictly interior, and the
interpolated point at that projection is higher than `y + 1e-6`. -/
def Dominates (l : List Pt) (x y : ℝ) : Prop :=
  polyLen l ≠ 0 ∧ projectLS l (x, 0) ≠ 0 ∧ projectLS l (x, 0) ≠ polyLen l ∧
    y + surfTol < (interpLS l (projectLS l (x, 0))).2

/-! ### Auxiliary definitions used to state and witness the claims. -/

/-- Option-valued running maximum, mirroring the effect of repeated
`if x not in tc or y > tc[x]` updates on one key. -/
def omaxF (o : Option ℝ) (y : ℝ) : Option ℝ :=
  match o with
  | none => some y
  | some a => if a < y then some y else some a

/-- The value the `top_candidates` dict associates to key `x` after
scanning `pts`, starting from `o`. -/
def collect (pts : List Pt) (x : ℝ) (o : Option ℝ) : Option ℝ :=
  pts.foldl (fun o q => if q.1 = x then omaxF o q.2 else o) o

/-- The constant value of the `bishop` iteration map when every slice has
`tan(phi) = 0`: each slice contributes `num/cos(alpha)`. -/
def bConst (t : SliceTable) : ℝ :=
  (t.rows.map (fun s => bNum t s / Real.cos (rad s.alpha))).sum / bDenom t

/-- A single-slice table (the non-trivial OMS example of the spec,
`w=100, alpha=20, c=5, phi=25, u=0, dl=2`) with both reinforcement
columns absent. -/
def absTbl : SliceTable := ⟨[⟨20, 100, 5, 25, 0, 2, 0, 0, 0, 0⟩], false, false⟩

/-- A single-slice table with both reinforcement columns present:
`alpha = 60`, `w = 1`, `c = 1`, `phi = 0`, `u = 0`, `dl = 1`. -/
def cSlice : Slice := ⟨60, 1, 1, 0, 0, 1, 0, 0, 0, 0⟩

/-- The table holding just `cSlice`. -/
def cTbl : SliceTable := ⟨[cSlice], true, true⟩

/-- A single-slice table whose `bishop` iteration converges at the first
iteration: `alpha = 0`, `phi = 0`, `c = 1`, `dl = 1`, `w = 0`, and a
present `shear_reinf = -1` making the driving sum equal 1. -/
def t0Tbl : SliceTable := ⟨[⟨0, 0, 1, 0, 0, 1, 0, 0, -1, 0⟩], true, true⟩

/-- A single horizontal two-point profile line. -/
def linesW : List (List Pt) := [[(0, 0), (10, 0)]]

/-- A single profile line rising from `(0, -10)` to `(10, 0)`: its own
left vertex is dominated by the line itself. -/
def cxLines : List (List Pt) := [[(0, -10), (10, 0)]]

/-- A single one-point profile line. -/
def spLines : List (List Pt) := [[(0, 5)]]

/-! ### Generic list lemmas -/

theorem zip_replicate_self {α β : Type _} (l : List α) (c : β) :
    l.zip (List.replicate l.length c) = l.map (fun a => (a, c)) := by
  induction l with
  | nil => rfl
  | cons a l ih => simp [List.replicate_succ, ih]

theorem zip_map_self {α β : Type _} (l : List α) (g : α → β) :
    l.zip (l.map g) = l.map (fun a => (a, g a)) := by
  induction l with
  | nil => rfl
  | cons a l ih => simp [ih]

theorem linspace_length (a b : ℝ) : ∀ n, (linspace a b n).length = n
  | 0 => rfl
  | 1 => rfl
  | m + 2 => by
    have h : linspace a b (m + 2) = (List.range (m + 2)).map (fun (i : ℕ) => a + (b - a) * (i : ℝ) / ((m : ℝ) + 1)) := rfl
    rw [h, List.length_map, List.length_range]

/-! ### C1: `oms` on a table with the reinforcement columns absent -/

/-- C1: on a non-empty slice table whose optional reinforcement columns
are absent, `oms` does not default them to 0: it raises
(`df.get('shear_reinf', 0).values` takes `.values` on the scalar `0`),
embedded as the `AttributeError` result. -/
theorem oms_missing_reinforcement_columns :
    absTbl.rows ≠ [] ∧ oms absTbl = .error attrErr := by
  constructor
  · simp [absTbl]
  · simp [oms, absTbl]

/-! ### C2: `morgenstern_price` with the default shape function equals
`janbu_corrected` -/

theorem mpStep_one (t : SliceTable) (F lam : ℝ) :
    mpStep t (List.replicate t.rows.length 1) F lam = jcStep t F lam := by
  unfold mpStep jcStep
  simp only [zip_replicate_self, List.map_map, List.zip_map', zip_map_self,
    Function.comp_def, mul_one]
  by_cases h :
      (t.rows.map (fun s =>
        (s.c * s.dl +
            (s.w * Real.cos (rad s.alpha) + getNormal t s - s.u * s.dl) *
              Real.tan (rad s.phi) / F) /
          (1 + lam * Real.tan (rad s.phi) / F) * Real.cos (rad s.alpha))).sum = 0
  · rw [if_neg (by simpa using h), h, div_zero]
  · rw [if_pos h]

theorem mpLoop_one (t : SliceTable) (tol : ℝ) :
    ∀ n F lam, mpLoop t (List.replicate t.rows.length 1) tol n F lam = jcLoop t tol n F lam := by
  intro n
  induction n with
  | zero => intro F lam; rfl
  | succ n ih =>
    intro F lam
    simp only [mpLoop, jcLoop, mpStep_one, ih]

/-- C2: with the default constant inter-slice shape function
`psi(x) = 1.0`, `morgenstern_price` returns exactly the same
`(FS, lambda, converged)` triple as `janbu_corrected` on every slice
table, for identical `tol` and `max_iter` (so FS and lambda agree within
any tolerance). -/
theorem mp_default_matches_janbu_corrected (t : SliceTable) (tol : ℝ) (k : ℕ) :
    morgenstern_price t (fun _ => 1) tol k = janbu_corrected t tol k := by
  unfold morgenstern_price janbu_corrected
  rw [List.map_const', linspace_length, mpLoop_one]

/-! ### C7: `spencer` ignores the `normal_reinf` column -/

theorem sStep_zeroNormal (t : SliceTable) (b : Bool) (F beta : ℝ) :
    sStep (zeroNormalTable t b) F beta = sStep t F beta := by
  unfold sStep zeroNormalTable
  simp only [List.map_map, List.zip_map', zip_map_self, Function.comp_def]
  rfl

theorem spencerLoop_zeroNormal (t : SliceTable) (b : Bool) (tol : ℝ) :
    ∀ n F beta, spencerLoop (zeroNormalTable t b) tol n F beta = spencerLoop t tol n F beta := by
  intro n
  induction n with
  | zero => intro F beta; rfl
  | succ n ih =>
    intro F beta
    simp only [spencerLoop, sStep_zeroNormal, ih]

/-! ### C3: `bishop` versus `oms` when `tan(phi) = 0` -/

theorem rad_zero : rad 0 = 0 := by
  unfold rad
  ring

theorem tan_rad_zero : Real.tan (rad 0) = 0 := by
  rw [rad_zero, Real.tan_zero]

theorem rad_sixty : rad 60 = Real.pi / 3 := by
  unfold rad
  ring

theorem sqrt3_pos : 0 < Real.sqrt 3 := Real.sqrt_pos.mpr (by norm_num)

theorem sqrt3_le_two : Real.sqrt 3 ≤ 2 := by
  have h4 : Real.sqrt 4 = 2 := by
    rw [show (4 : ℝ) = 2 ^ 2 by norm_num, Real.sqrt_sq (by norm_num : (0 : ℝ) ≤ 2)]
  calc Real.sqrt 3 ≤ Real.sqrt 4 := Real.sqrt_le_sqrt (by norm_num)
  _ = 2 := h4

theorem bDenom_cTbl : bDenom cTbl = Real.sqrt 3 / 2 := by
  simp [bDenom, cTbl, cSlice, getShear, rad_sixty, Real.sin_pi_div_three]

theorem NfGet_cTbl : NfGet cTbl cSlice = 1 / 2 := by
  simp [NfGet, cTbl, cSlice, getNormal, rad_sixty, Real.cos_pi_div_three]

theorem bStep_cTbl (F : ℝ) : bStep cTbl F = 4 / Real.sqrt 3 := by
  have h3 : Real.sqrt 3 ≠ 0 := ne_of_gt sqrt3_pos
  simp [bStep, bDenom, bNum, NfGet, getNormal, getShear, cTbl, cSlice, rad_sixty,
    tan_rad_zero, Real.cos_pi_div_three, Real.sin_pi_div_three]
  rw [div_div_eq_mul_div]
  norm_num

theorem two_le_four_div_sqrt3 : (2 : ℝ) ≤ 4 / Real.sqrt 3 := by
  rw [le_div_iff sqrt3_pos]
  nlinarith [sqrt3_le_two]

/-- C3 counterexample: on the single-slice table `cTbl`
(`alpha = 60, w = 1, c = 1, phi = 0, u = 0, dl = 1`, reinforcement
columns present and zero) every slice has `tan(phi) = 0`, yet `bishop`
(defaults `tol = 1e-6, max_iter = 100`) converges to `FS = 4/sqrt 3`
while `oms` returns `FS = 2/sqrt 3`: the two differ by far more than
`tol`, refuting the claimed equality. -/
theorem bishop_oms_tanphi_zero_counterexample :
    (∀ s ∈ cTbl.rows, Real.tan (rad s.phi) = 0) ∧
    bishop cTbl (1 / 1000000) 100 = some (4 / Real.sqrt 3, [NfGet cTbl cSlice], true) ∧
    oms cTbl = .ok (FSResult.fin (2 / Real.sqrt 3), [NfRaw cSlice]) ∧
    ¬ |4 / Real.sqrt 3 - 2 / Real.sqrt 3| < 1 / 1000000 := by
  have h3 : Real.sqrt 3 ≠ 0 := ne_of_gt sqrt3_pos
  refine ⟨?_, ?_, ?_, ?_⟩
  · intro s hs
    have : s = cSlice := by simpa [cTbl] using hs
    rw [this]
    exact tan_rad_zero
  · unfold bishop
    rw [if_neg (by norm_num)]
    have hK1 : ¬ |4 / Real.sqrt 3 - 1| < 1 / 1000000 := by
      intro habs
      rw [abs_lt] at habs
      have := habs.2
      have h2 := two_le_four_div_sqrt3
      linarith
    have hloop : bishopLoop cTbl (1 / 1000000) 100 1 = (4 / Real.sqrt 3, true) := by
      show bishopLoop cTbl (1 / 1000000) (99 + 1) 1 = _
      simp only [bishopLoop]
      rw [bStep_cTbl 1, if_neg hK1]
      show bishopLoop cTbl (1 / 1000000) (98 + 1) _ = _
      simp only [bishopLoop]
      rw [bStep_cTbl]
      rw [if_pos (by rw [sub_self, abs_zero]; norm_num)]
    rw [hloop]
    simp [cTbl]
  · unfold oms
    have hden : omsDenom cTbl = Real.sqrt 3 / 2 := by
      simp [omsDenom, cTbl, cSlice, rad_sixty, Real.sin_pi_div_three]
    have hnum : omsNum cTbl = 1 := by
      simp [omsNum, cTbl, cSlice, tan_rad_zero]
    have hne : omsDenom cTbl ≠ 0 := by
      rw [hden]
      exact div_ne_zero h3 two_ne_zero
    rw [if_pos (show (cTbl.hasShear && cTbl.hasNormal) = true from rfl)]
    rw [if_pos hne, hnum, hden, one_div_div]
    rfl
  · rw [div_sub_div_same]
    have h1 : (1 : ℝ) ≤ (4 - 2) / Real.sqrt 3 := by
      rw [le_div_iff sqrt3_pos]
      nlinarith [sqrt3_le_two]
    intro habs
    rw [abs_lt] at habs
    have := habs.2
    linarith

theorem bStep_tanphi_zero (t : SliceTable)
    (htan : ∀ s ∈ t.rows, Real.tan (rad s.phi) = 0) (F : ℝ) :
    bStep t F = bConst t := by
  unfold bStep bConst
  congr 1
  exact congrArg List.sum (List.map_congr_left (fun s hs => by rw [htan s hs]; simp))

/-- C3 amended: when `tan(phi) = 0` for all slices, `bishop`'s iteration
denominator reduces to `cos(alpha)` and its iteration map is the constant
`bConst` (independent of `F_guess`), so for any `tol > 0` and
`max_iter >= 2` `bishop` converges (flag `true`) to `bConst`; and this FS
equals the FS returned by `oms` when additionally every slice has
`alpha = 0` (and the reinforcement columns are present, so `oms` does not
raise, and the driving sum is nonzero). -/
theorem bishop_tanphi_zero_amended (t : SliceTable) (tol : ℝ) (k : ℕ)
    (htan : ∀ s ∈ t.rows, Real.tan (rad s.phi) = 0) (htol : 0 < tol) (hk : 2 ≤ k) :
    bishop t tol k = some (bConst t, t.rows.map (NfGet t), true) ∧
    ((∀ s ∈ t.rows, s.alpha = 0) → t.hasShear = true → t.hasNormal = true → bDenom t ≠ 0 →
      oms t = .ok (FSResult.fin (bConst t), t.rows.map NfRaw)) := by
  constructor
  · unfold bishop
    rw [if_neg (by omega)]
    obtain ⟨m, rfl⟩ : ∃ m, k = m + 2 := ⟨k - 2, by omega⟩
    have hloop : bishopLoop t tol (m + 2) 1 = (bConst t, true) := by
      show bishopLoop t tol ((m + 1) + 1) 1 = _
      simp only [bishopLoop]
      rw [bStep_tanphi_zero t htan 1]
      by_cases h1 : |bConst t - 1| < tol
      · rw [if_pos h1]
      · rw [if_neg h1]
        show bishopLoop t tol (m + 1) (bConst t) = _
        simp only [bishopLoop]
        rw [bStep_tanphi_zero t htan (bConst t)]
        rw [if_pos (by rw [sub_self, abs_zero]; exact htol)]
    rw [hloop]
  · intro ha hS hN hD
    unfold oms
    rw [if_pos (by rw [hS, hN]; rfl)]
    have hdeq : omsDenom t = bDenom t := by
      unfold omsDenom bDenom
      exact congrArg List.sum (List.map_congr_left (fun s _ => by simp [getShear, hS]))
    have hneq : omsNum t = (t.rows.map (fun s => bNum t s / Real.cos (rad s.alpha))).sum := by
      apply congrArg List.sum
      apply List.map_congr_left
      intro s hs
      unfold bNum NfRaw NfGet getNormal
      rw [ha s hs, rad_zero, Real.cos_zero, hN]
      simp
    rw [if_pos (by rw [hdeq]; exact hD)]
    rw [hneq, hdeq]
    rfl

/-- C3 amended witness: the amended statement at the concrete table
`t0Tbl` with `tol = 1/2` and `max_iter = 2`. -/
theorem bishop_tanphi_zero_amended_witness :
    bishop t0Tbl (1 / 2) 2 = some (bConst t0Tbl, t0Tbl.rows.map (NfGet t0Tbl), true) ∧
    ((∀ s ∈ t0Tbl.rows, s.alpha = 0) → t0Tbl.hasShear = true → t0Tbl.hasNormal = true →
      bDenom t0Tbl ≠ 0 →
      oms t0Tbl = .ok (FSResult.fin (bConst t0Tbl), t0Tbl.rows.map NfRaw)) :=
  bishop_tanphi_zero_amended t0Tbl (1 / 2) 2
    (by
      intro s hs
      simp [t0Tbl] at hs
      rw [hs]
      exact tan_rad_zero)
    (by norm_num) (le_refl 2)

/-! ### C6: `bishop` terminates within `max_iter` with a correct flag -/

theorem bishopLoop_no_hit (t : SliceTable) (tol : ℝ) :
    ∀ n m, (∀ i, i < n → ¬ |bSeq t (m + i + 1) - bSeq t (m + i)| < tol) →
      bishopLoop t tol n (bSeq t m) = (bSeq t (m + n), false) := by
  intro n
  induction n with
  | zero => intro m _; rfl
  | succ n ih =>
    intro m h
    have h0 : ¬ |bSeq t (m + 1) - bSeq t m| < tol := by
      have := h 0 (Nat.succ_pos n)
      simpa using this
    have e : bSeq t (m + 1) = bStep t (bSeq t m) := rfl
    simp only [bishopLoop]
    rw [← e, if_neg h0]
    have h' : ∀ i, i < n → ¬ |bSeq t (m + 1 + i + 1) - bSeq t (m + 1 + i)| < tol := by
      intro i hi
      have := h (i + 1) (by omega)
      have e2 : m + (i + 1) = m + 1 + i := by omega
      rw [e2] at this
      exact this
    rw [ih (m + 1) h']
    have e3 : m + 1 + n = m + (n + 1) := by omega
    rw [e3]

theorem bishopLoop_hit (t : SliceTable) (tol : ℝ) :
    ∀ n m i, i < n → |bSeq t (m + i + 1) - bSeq t (m + i)| < tol →
      (∀ j, j < i → ¬ |bSeq t (m + j + 1) - bSeq t (m + j)| < tol) →
      bishopLoop t tol n (bSeq t m) = (bSeq t (m + i + 1), true) := by
  intro n
  induction n with
  | zero => intro m i hi _ _; exact absurd hi (Nat.not_lt_zero i)
  | succ n ih =>
    intro m i hi hC hmin
    have e : bSeq t (m + 1) = bStep t (bSeq t m) := rfl
    simp only [bishopLoop]
    rw [← e]
    cases i with
    | zero =>
      rw [if_pos (by simpa using hC)]
    | succ i' =>
      have h0 : ¬ |bSeq t (m + 1) - bSeq t m| < tol := by
        simpa using hmin 0 (Nat.succ_pos i')
      rw [if_neg h0]
      have e2 : m + (i' + 1) = m + 1 + i' := by omega
      rw [e2] at hC
      have hmin' : ∀ j, j < i' → ¬ |bSeq t (m + 1 + j + 1) - bSeq t (m + 1 + j)| < tol := by
        intro j hj
        have := hmin (j + 1) (by omega)
        have e3 : m + (j + 1) = m + 1 + j := by omega
        rw [e3] at this
        exact this
      rw [ih (m + 1) i' (by omega) hC hmin']
      have e4 : m + 1 + i' = m + (i' + 1) := by omega
      rw [e4]

/-- C6: for every slice table, tolerance and `max_iter >= 1`, `bishop`
returns a value (no exception): the loop stops at the first iteration
whose `|F_calc - F_guess| < tol` with flag `true` and that `F_calc`, and
otherwise exhausts `max_iter` iterations and returns the last computed
`F_calc` with flag `false`. -/
theorem bishop_termination_flag (t : SliceTable) (tol : ℝ) (k : ℕ) (hk : 1 ≤ k) :
    ∃ F b, bishop t tol k = some (F, t.rows.map (NfGet t), b) ∧
      ((b = true ∧ ∃ i, i < k ∧ |bSeq t (i + 1) - bSeq t i| < tol ∧
          (∀ j, j < i → ¬ |bSeq t (j + 1) - bSeq t j| < tol) ∧ F = bSeq t (i + 1)) ∨
       (b = false ∧ (∀ i, i < k → ¬ |bSeq t (i + 1) - bSeq t i| < tol) ∧ F = bSeq t k)) := by
  have hk0 : ¬ k = 0 := by omega
  have e1 : (1 : ℝ) = bSeq t 0 := rfl
  by_cases hex : ∃ i, i < k ∧ |bSeq t (i + 1) - bSeq t i| < tol
  · haveI : DecidablePred fun i => |bSeq t (i + 1) - bSeq t i| < tol :=
      fun _ => Classical.propDecidable _
    obtain ⟨i0, hi0k, hi0⟩ := hex
    have hex' : ∃ i, |bSeq t (i + 1) - bSeq t i| < tol := ⟨i0, hi0⟩
    have hjk : Nat.find hex' < k := lt_of_le_of_lt (Nat.find_min' hex' hi0) hi0k
    have hjC : |bSeq t (Nat.find hex' + 1) - bSeq t (Nat.find hex')| < tol := Nat.find_spec hex'
    have hjmin : ∀ l, l < Nat.find hex' → ¬ |bSeq t (l + 1) - bSeq t l| < tol :=
      fun l hl => Nat.find_min hex' hl
    have hloop := bishopLoop_hit t tol k 0 (Nat.find hex') hjk (by simpa using hjC)
      (by intro l hl; simpa using hjmin l hl)
    simp only [Nat.zero_add] at hloop
    refine ⟨bSeq t (Nat.find hex' + 1), true, ?_,
      Or.inl ⟨rfl, Nat.find hex', hjk, hjC, hjmin, rfl⟩⟩
    unfold bishop
    rw [if_neg hk0]
    rw [e1, hloop]
  · have hno : ∀ i, i < k → ¬ |bSeq t (i + 1) - bSeq t i| < tol :=
      fun i hik hC => hex ⟨i, hik, hC⟩
    have hloop := bishopLoop_no_hit t tol k 0 (by intro i hi; simpa using hno i hi)
    simp only [Nat.zero_add] at hloop
    refine ⟨bSeq t k, false, ?_, Or.inr ⟨rfl, hno, rfl⟩⟩
    unfold bishop
    rw [if_neg hk0]
    rw [e1, hloop]

/-- C6 witness: `bishop` on the concrete table `t0Tbl` with
`tol = 1e-6` and `max_iter = 1`. -/
theorem bishop_termination_flag_witness :
    ∃ F b, bishop t0Tbl (1 / 1000000) 1 = some (F, t0Tbl.rows.map (NfGet t0Tbl), b) ∧
      ((b = true ∧ ∃ i, i < 1 ∧ |bSeq t0Tbl (i + 1) - bSeq t0Tbl i| < 1 / 1000000 ∧
          (∀ j, j < i → ¬ |bSeq t0Tbl (j + 1) - bSeq t0Tbl j| < 1 / 1000000) ∧
          F = bSeq t0Tbl (i + 1)) ∨
       (b = false ∧ (∀ i, i < 1 → ¬ |bSeq t0Tbl (i + 1) - bSeq t0Tbl i| < 1 / 1000000) ∧
          F = bSeq t0Tbl 1)) :=
  bishop_termination_flag t0Tbl (1 / 1000000) 1 (le_refl 1)

/-- C7: `spencer` is noninterferent in the `normal_reinf` column: its
`(FS, beta)` output on any table equals its output on the table with
every `normal_reinf` entry replaced by zero (and the column-presence flag
set arbitrarily), because the reinforcement-aware numerator is computed
and immediately overwritten by the reinforcement-ignoring one before
use. -/
theorem spencer_normal_reinf_noninterference (t : SliceTable) (b : Bool) (tol : ℝ) (k : ℕ) :
    spencer (zeroNormalTable t b) tol k = spencer t tol k := by
  unfold spencer
  exact spencerLoop_zeroNormal t b tol k 1 0

/-! ### Ground surface: step lemmas for the candidate filter -/

theorem keptPoints_cons (lines : List (List Pt)) (p : Pt) (ps : List Pt) :
    keptPoints lines (p :: ps) =
      match checkLines p.1 p.2 lines with
      | .error e => .error e
      | .ok true =>
        match keptPoints lines ps with
        | .error e => .error e
        | .ok r => .ok (p :: r)
      | .ok false => keptPoints lines ps := rfl

theorem keptPoints_cons_error (lines : List (List Pt)) (p : Pt) (ps : List Pt) (e : String)
    (h : checkLines p.1 p.2 lines = .error e) :
    keptPoints lines (p :: ps) = .error e := by
  rw [keptPoints_cons, h]

theorem keptPoints_cons_false (lines : List (List Pt)) (p : Pt) (ps : List Pt)
    (h : checkLines p.1 p.2 lines = .ok false) :
    keptPoints lines (p :: ps) = keptPoints lines ps := by
  rw [keptPoints_cons, h]

theorem keptPoints_cons_true (lines : List (List Pt)) (p : Pt) (ps : List Pt)
    (h : checkLines p.1 p.2 lines = .ok true) :
    keptPoints lines (p :: ps) =
      match keptPoints lines ps with
      | .error e => .error e
      | .ok r => .ok (p :: r) := by
  rw [keptPoints_cons, h]

theorem keptPoints_sublist (lines : List (List Pt)) :
    ∀ cs r, keptPoints lines cs = .ok r → r.Sublist cs := by
  intro cs
  induction cs with
  | nil =>
    intro r hr
    unfold keptPoints at hr
    injection hr with h
    rw [← h]
  | cons p ps ih =>
    intro r hr
    cases hcl : checkLines p.1 p.2 lines with
    | error e =>
      rw [keptPoints_cons_error lines p ps e hcl] at hr
      simp at hr
    | ok b =>
      cases b with
      | true =>
        rw [keptPoints_cons_true lines p ps hcl] at hr
        cases hk : keptPoints lines ps with
        | error e => rw [hk] at hr; simp at hr
        | ok r' =>
          rw [hk] at hr
          injection hr with h
          rw [← h]
          exact (ih r' hk).cons₂ p
      | false =>
        rw [keptPoints_cons_false lines p ps hcl] at hr
        exact (ih r hr).cons p

theorem checkLines_ok (x y : ℝ) :
    ∀ ls, (∀ l ∈ ls, l.length ≠ 1) →
      ∃ b, checkLines x y ls = .ok b ∧ (b = true ↔ ∀ l ∈ ls, ¬ Dominates l x y) := by
  intro ls
  induction ls with
  | nil => exact fun _ => ⟨true, rfl, by simp⟩
  | cons l ls ih =>
    intro h
    have hl : l.length ≠ 1 := h l (List.mem_cons_self l ls)
    obtain ⟨b, hb, hiff⟩ := ih (fun l' hl' => h l' (List.mem_cons_of_mem l hl'))
    unfold checkLines
    rw [if_neg hl]
    by_cases h0 : polyLen l = 0
    · rw [if_pos h0]
      refine ⟨b, hb, ?_⟩
      rw [hiff, List.forall_mem_cons]
      have hnd : ¬ Dominates l x y := fun hd => hd.1 h0
      exact ⟨fun hall => ⟨hnd, hall⟩, fun hc => hc.2⟩
    · rw [if_neg h0]
      by_cases hpr : projectLS l (x, 0) = 0 ∨ projectLS l (x, 0) = polyLen l
      · rw [if_pos hpr]
        refine ⟨b, hb, ?_⟩
        rw [hiff, List.forall_mem_cons]
        have hnd : ¬ Dominates l x y := by
          rcases hpr with hp0 | hpl
          · exact fun hd => hd.2.1 hp0
          · exact fun hd => hd.2.2.1 hpl
        exact ⟨fun hall => ⟨hnd, hall⟩, fun hc => hc.2⟩
      · rw [if_neg hpr]
        by_cases hy : y + surfTol < (interpLS l (projectLS l (x, 0))).2
        · rw [if_pos hy]
          have hd : Dominates l x y :=
            ⟨h0, (not_or.mp hpr).1, (not_or.mp hpr).2, hy⟩
          refine ⟨false, rfl, ?_⟩
          rw [List.forall_mem_cons]
          simp [hd]
        · rw [if_neg hy]
          refine ⟨b, hb, ?_⟩
          rw [hiff, List.forall_mem_cons]
          have hnd : ¬ Dominates l x y := fun hd => hy hd.2.2.2
          exact ⟨fun hall => ⟨hnd, hall⟩, fun hc => hc.2⟩

theorem keptPoints_ok (lines : List (List Pt)) (h : ∀ l ∈ lines, l.length ≠ 1) :
    ∀ cs, ∃ r, keptPoints lines cs = .ok r ∧ r.Sublist cs ∧
      ∀ p : Pt, (p ∈ r ↔ p ∈ cs ∧ ∀ l ∈ lines, ¬ Dominates l p.1 p.2) := by
  intro cs
  induction cs with
  | nil => exact ⟨[], rfl, List.Sublist.refl [], by simp⟩
  | cons p ps ih =>
    obtain ⟨r, hr, hsub, hmem⟩ := ih
    obtain ⟨b, hb, hiff⟩ := checkLines_ok p.1 p.2 lines h
    cases b with
    | true =>
      have hall : ∀ l ∈ lines, ¬ Dominates l p.1 p.2 := hiff.mp rfl
      refine ⟨p :: r, ?_, hsub.cons₂ p, ?_⟩
      · rw [keptPoints_cons_true lines p ps hb, hr]
      · intro p'
        constructor
        · intro hp'
          rcases List.mem_cons.mp hp' with rfl | hmem'
          · exact ⟨List.mem_cons_self _ _, hall⟩
          · obtain ⟨hin, hnd⟩ := (hmem p').mp hmem'
            exact ⟨List.mem_cons_of_mem p hin, hnd⟩
        · rintro ⟨hin, hnd⟩
          rcases List.mem_cons.mp hin with rfl | hin'
          · exact List.mem_cons_self _ _
          · exact List.mem_cons_of_mem p ((hmem p').mpr ⟨hin', hnd⟩)
    | false =>
      have hnot : ¬ ∀ l ∈ lines, ¬ Dominates l p.1 p.2 := by
        intro hall
        simpa using hiff.mpr hall
      refine ⟨r, ?_, hsub.cons p, ?_⟩
      · rw [keptPoints_cons_false lines p ps hb, hr]
      · intro p'
        rw [hmem p']
        constructor
        · rintro ⟨hin, hnd⟩
          exact ⟨List.mem_cons_of_mem p hin, hnd⟩
        · rintro ⟨hin, hnd⟩
          rcases List.mem_cons.mp hin with rfl | hin'
          · exact absurd hnd hnot
          · exact ⟨hin', hnd⟩

/-- C4 amended: when no profile line consists of exactly one point (so no
shapely construction error occurs), the candidate filter keeps a per-x
maximum candidate `(x, y)` if and only if no profile line — the
candidate's own source line included — dominates it, where a line
dominates when it has nonzero length, the projection of `(x, 0)` onto it
is strictly interior, and the interpolated point at that projection has
elevation exceeding `y + 1e-6`; `buildGroundSurface` then returns the
kept list when it has at least two points, else the empty line. -/
theorem ground_surface_filter_amended (lines : List (List Pt))
    (h : ∀ l ∈ lines, l.length ≠ 1) :
    ∃ kept, keptPoints lines (candidates lines) = .ok kept ∧
      (∀ p : Pt, p ∈ kept ↔ p ∈ candidates lines ∧ ∀ l ∈ lines, ¬ Dominates l p.1 p.2) ∧
      buildGroundSurface lines = .ok (if 2 ≤ kept.length then kept else []) := by
  obtain ⟨r, hr, _, hmem⟩ := keptPoints_ok lines h (candidates lines)
  refine ⟨r, hr, hmem, ?_⟩
  unfold buildGroundSurface
  rw [hr]

/-- C4 amended witness: the amended statement at the concrete single
horizontal line `linesW`. -/
theorem ground_surface_filter_amended_witness :
    ∃ kept, keptPoints linesW (candidates linesW) = .ok kept ∧
      (∀ p : Pt, p ∈ kept ↔ p ∈ candidates linesW ∧ ∀ l ∈ linesW, ¬ Dominates l p.1 p.2) ∧
      buildGroundSurface linesW = .ok (if 2 ≤ kept.length then kept else []) :=
  ground_surface_filter_amended linesW (by
    intro l hl
    simp [linesW] at hl
    rw [hl]
    norm_num)

/-! ### Ground surface: evaluation lemmas on concrete inputs -/

theorem insertionSort_single (r : Pt → Pt → Prop) [DecidableRel r] (a : Pt) :
    List.insertionSort r [a] = [a] := rfl

theorem insertionSort_pair (r : Pt → Pt → Prop) [DecidableRel r] (a b : Pt) (hab : r a b) :
    List.insertionSort r [a, b] = [a, b] := by
  simp [List.insertionSort, List.orderedInsert, hab]

theorem tcFold_single (p : Pt) : tcFold [p] = [p] := rfl

theorem tcFold_pair (p q : Pt) (hne : p.1 ≠ q.1) : tcFold [p, q] = [p, q] := by
  have h1 : alook [p] q.1 = none := by
    unfold alook
    rw [if_neg hne]
    rfl
  show updTC (updTC [] p) q = [p, q]
  rw [show updTC [] p = [p] from rfl]
  unfold updTC
  rw [h1]
  rfl

theorem polyLen_pair (a b : Pt) : polyLen [a, b] = segLen a b := by
  show segLen a b + polyLen [b] = segLen a b
  show segLen a b + 0 = segLen a b
  rw [add_zero]

theorem projectLS_pair (a b p : Pt) : projectLS [a, b] p = segParam a b p * segLen a b := by
  show (match projAux p [a, b] 0 none with
    | some q => q.2
    | none => 0) = _
  rw [show projAux p [a, b] 0 none =
    some (segDist a b p, 0 + segParam a b p * segLen a b) from rfl]
  show 0 + segParam a b p * segLen a b = _
  rw [zero_add]

/-- C5: on the single one-point profile line `[[(0, 5)]]` (the spec's
degenerate empty-sentinel example) the builder does not return an empty
line: constructing the shapely `LineString` of the one-point line raises,
embedded as the `.error` result. -/
theorem ground_surface_single_point_raises :
    buildGroundSurface spLines = .error oneCoordErr := by
  have hc : candidates spLines = [((0 : ℝ), (5 : ℝ))] := by
    unfold candidates allPoints spLines
    rw [show ([[((0 : ℝ), (5 : ℝ))]] : List (List Pt)).flatten = [((0 : ℝ), (5 : ℝ))] from by simp]
    rw [List.dedup_cons_of_not_mem (by simp), List.dedup_nil]
    rw [insertionSort_single, tcFold_single, insertionSort_single]
  have hcl : checkLines (0 : ℝ) (5 : ℝ) spLines = .error oneCoordErr := by
    show checkLines (0 : ℝ) (5 : ℝ) [[((0 : ℝ), (5 : ℝ))]] = .error oneCoordErr
    unfold checkLines
    rw [if_pos (show ([((0 : ℝ), (5 : ℝ))] : List Pt).length = 1 from rfl)]
  unfold buildGroundSurface
  rw [hc, keptPoints_cons_error spLines ((0 : ℝ), (5 : ℝ)) [] oneCoordErr hcl]

theorem segLen_cx :
    segLen ((0 : ℝ), (-10 : ℝ)) ((10 : ℝ), (0 : ℝ)) = Real.sqrt 200 := by
  unfold segLen
  norm_num

theorem sqrt200_pos : 0 < Real.sqrt 200 := Real.sqrt_pos.mpr (by norm_num)

theorem candidates_cx :
    candidates cxLines = [((0 : ℝ), (-10 : ℝ)), ((10 : ℝ), (0 : ℝ))] := by
  unfold candidates allPoints cxLines
  rw [show ([[((0 : ℝ), (-10 : ℝ)), ((10 : ℝ), (0 : ℝ))]] : List (List Pt)).flatten =
    [((0 : ℝ), (-10 : ℝ)), ((10 : ℝ), (0 : ℝ))] from by simp]
  rw [List.dedup_cons_of_not_mem (by norm_num), List.dedup_cons_of_not_mem (by simp),
    List.dedup_nil]
  rw [insertionSort_pair ptKeyLe _ _ (Or.inl (by norm_num))]
  rw [tcFold_pair _ _ (by norm_num)]
  rw [insertionSort_pair pairLe _ _ (Or.inl (by norm_num))]

theorem checkLines_cx_left :
    checkLines (0 : ℝ) (-10 : ℝ) cxLines = .ok false := by
  have hs0 : Real.sqrt 200 ≠ 0 := ne_of_gt sqrt200_pos
  have hparam : segParam ((0 : ℝ), (-10 : ℝ)) ((10 : ℝ), (0 : ℝ)) ((0 : ℝ), (0 : ℝ)) =
      1 / 2 := by
    unfold segParam clip
    norm_num
  have hproj : projectLS [((0 : ℝ), (-10 : ℝ)), ((10 : ℝ), (0 : ℝ))] ((0 : ℝ), (0 : ℝ)) =
      Real.sqrt 200 / 2 := by
    rw [projectLS_pair, hparam, segLen_cx]
    ring
  have hint : interpLS [((0 : ℝ), (-10 : ℝ)), ((10 : ℝ), (0 : ℝ))] (Real.sqrt 200 / 2) =
      ((5 : ℝ), (-5 : ℝ)) := by
    unfold interpLS
    rw [segLen_cx]
    rw [if_pos (by linarith [sqrt200_pos] : Real.sqrt 200 / 2 ≤ Real.sqrt 200)]
    rw [if_neg hs0]
    have hr : Real.sqrt 200 / 2 / Real.sqrt 200 = 1 / 2 := by
      field_simp
      ring
    rw [hr]
    unfold segPoint
    norm_num
  show checkLines (0 : ℝ) (-10 : ℝ)
    [[((0 : ℝ), (-10 : ℝ)), ((10 : ℝ), (0 : ℝ))]] = .ok false
  unfold checkLines
  rw [if_neg (show ¬ ([((0 : ℝ), (-10 : ℝ)), ((10 : ℝ), (0 : ℝ))] : List Pt).length = 1
    from by simp)]
  rw [polyLen_pair, segLen_cx, hproj]
  rw [if_neg hs0]
  rw [if_neg (by
    push_neg
    refine ⟨by positivity, ne_of_lt (half_lt_self sqrt200_pos)⟩)]
  rw [hint]
  rw [if_pos (by unfold surfTol; norm_num)]

theorem checkLines_cx_right :
    checkLines (10 : ℝ) (0 : ℝ) cxLines = .ok true := by
  have hparam : segParam ((0 : ℝ), (-10 : ℝ)) ((10 : ℝ), (0 : ℝ)) ((10 : ℝ), (0 : ℝ)) =
      1 := by
    unfold segParam clip
    norm_num
  have hproj : projectLS [((0 : ℝ), (-10 : ℝ)), ((10 : ℝ), (0 : ℝ))] ((10 : ℝ), (0 : ℝ)) =
      Real.sqrt 200 := by
    rw [projectLS_pair, hparam, segLen_cx, one_mul]
  show checkLines (10 : ℝ) (0 : ℝ)
    [[((0 : ℝ), (-10 : ℝ)), ((10 : ℝ), (0 : ℝ))]] = .ok true
  unfold checkLines
  rw [if_neg (show ¬ ([((0 : ℝ), (-10 : ℝ)), ((10 : ℝ), (0 : ℝ))] : List Pt).length = 1
    from by simp)]
  rw [polyLen_pair, segLen_cx, hproj]
  rw [if_neg (ne_of_gt sqrt200_pos)]
  rw [if_pos (Or.inr rfl)]
  rfl

/-- C4 counterexample: on the single rising profile line
`[[(0, -10), (10, 0)]]` both vertices are per-x-maximum candidates and
there is no *other* profile line at all, so the claim says both are kept
(result `[(0,-10), (10,0)]`); but the code checks the candidate against
its own source line, whose nearest point to `(0, 0)` is `(5, -5)` with
`-5 > -10 + 1e-6`, so `(0, -10)` is discarded and the builder returns the
empty line. -/
theorem ground_surface_own_line_counterexample :
    candidates cxLines = [((0 : ℝ), (-10 : ℝ)), ((10 : ℝ), (0 : ℝ))] ∧
    buildGroundSurface cxLines = .ok [] := by
  refine ⟨candidates_cx, ?_⟩
  unfold buildGroundSurface
  rw [candidates_cx]
  rw [keptPoints_cons_false cxLines ((0 : ℝ), (-10 : ℝ)) _ checkLines_cx_left]
  rw [keptPoints_cons_true cxLines ((10 : ℝ), (0 : ℝ)) [] checkLines_cx_right]
  rfl

/-! ### C8: strictly increasing x in the result -/

theorem alook_eq_none_iff : ∀ (d : List Pt) (x : ℝ), alook d x = none ↔ ∀ q ∈ d, q.1 ≠ x := by
  intro d
  induction d with
  | nil => intro x; simp [alook]
  | cons q d ih =>
    intro x
    unfold alook
    by_cases h : q.1 = x
    · rw [if_pos h]
      simp [h]
    · rw [if_neg h]
      rw [ih x]
      simp [h]

theorem aset_mem : ∀ (d : List Pt) (k v : ℝ) (q : Pt), q ∈ aset d k v →
    q ∈ d ∨ (q = (k, v) ∧ ∃ e ∈ d, e.1 = k) := by
  intro d k v
  induction d with
  | nil => intro q hq; simp [aset] at hq
  | cons e d ih =>
    intro q hq
    unfold aset at hq
    by_cases h : e.1 = k
    · rw [if_pos h] at hq
      rcases List.mem_cons.mp hq with rfl | hq'
      · exact Or.inr ⟨rfl, e, List.mem_cons_self e d, h⟩
      · exact Or.inl (List.mem_cons_of_mem e hq')
    · rw [if_neg h] at hq
      rcases List.mem_cons.mp hq with rfl | hq'
      · exact Or.inl (List.mem_cons_self q d)
      · rcases ih q hq' with h1 | ⟨h2, e', he', hk⟩
        · exact Or.inl (List.mem_cons_of_mem e h1)
        · exact Or.inr ⟨h2, e', List.mem_cons_of_mem e he', hk⟩

theorem pairwise_aset : ∀ (d : List Pt) (k v : ℝ),
    d.Pairwise (fun p q => p.1 ≠ q.1) →
    (aset d k v).Pairwise (fun p q => p.1 ≠ q.1) := by
  intro d k v
  induction d with
  | nil => intro _; exact List.Pairwise.nil
  | cons e d ih =>
    intro h
    rw [List.pairwise_cons] at h
    obtain ⟨he, hd⟩ := h
    unfold aset
    by_cases hek : e.1 = k
    · rw [if_pos hek]
      rw [List.pairwise_cons]
      refine ⟨?_, hd⟩
      intro q hq
      show k ≠ q.1
      rw [← hek]
      exact he q hq
    · rw [if_neg hek]
      rw [List.pairwise_cons]
      refine ⟨?_, ih hd⟩
      intro q hq
      rcases aset_mem d k v q hq with h1 | ⟨rfl, e', he', hk⟩
      · exact he q h1
      · exact fun hc => he e' he' (hc.trans hk.symm)

theorem pairwise_updTC (d : List Pt) (p : Pt)
    (h : d.Pairwise (fun a b => a.1 ≠ b.1)) :
    (updTC d p).Pairwise (fun a b => a.1 ≠ b.1) := by
  unfold updTC
  cases hl : alook d p.1 with
  | none =>
    show (d ++ [p]).Pairwise (fun a b => a.1 ≠ b.1)
    rw [List.pairwise_append]
    refine ⟨h, List.pairwise_singleton _ _, ?_⟩
    intro a ha b hb
    rw [List.mem_singleton] at hb
    rw [hb]
    exact (alook_eq_none_iff d p.1).mp hl a ha
  | some y0 =>
    show (if y0 < p.2 then aset d p.1 p.2 else d).Pairwise (fun a b => a.1 ≠ b.1)
    by_cases hlt : y0 < p.2
    · rw [if_pos hlt]
      exact pairwise_aset d p.1 p.2 h
    · rw [if_neg hlt]
      exact h

theorem pairwise_tcFoldAux : ∀ (pts d : List Pt),
    d.Pairwise (fun a b => a.1 ≠ b.1) →
    (List.foldl updTC d pts).Pairwise (fun a b => a.1 ≠ b.1) := by
  intro pts
  induction pts with
  | nil => exact fun d h => h
  | cons p pts ih => exact fun d h => ih (updTC d p) (pairwise_updTC d p h)

theorem candidates_pairwise_ne (lines : List (List Pt)) :
    (candidates lines).Pairwise (fun a b : Pt => a.1 ≠ b.1) := by
  have h1 : (tcFold (allPoints lines)).Pairwise (fun a b : Pt => a.1 ≠ b.1) :=
    pairwise_tcFoldAux (allPoints lines) [] List.Pairwise.nil
  exact ((List.perm_insertionSort pairLe (tcFold (allPoints lines))).pairwise_iff
    (fun h => Ne.symm h)).mpr h1

theorem candidates_pairwise_lt (lines : List (List Pt)) :
    (candidates lines).Pairwise (fun a b : Pt => a.1 < b.1) := by
  have hs : (candidates lines).Pairwise pairLe :=
    List.sorted_insertionSort pairLe (tcFold (allPoints lines))
  exact (hs.and (candidates_pairwise_ne lines)).imp
    (fun hab => hab.1.resolve_right (fun hc => hab.2 hc.1))

/-- C8: every list of points returned by `buildGroundSurface` (the
non-empty result in particular) is ordered with strictly increasing `x`,
hence has no duplicate `x` values. -/
theorem ground_surface_strictly_increasing_x (lines : List (List Pt)) (res : List Pt)
    (h : buildGroundSurface lines = .ok res) :
    res.Pairwise (fun p q : Pt => p.1 < q.1) := by
  unfold buildGroundSurface at h
  cases hk : keptPoints lines (candidates lines) with
  | error e => rw [hk] at h; simp at h
  | ok pts =>
    rw [hk] at h
    injection h with h'
    by_cases h2 : 2 ≤ pts.length
    · rw [if_pos h2] at h'
      rw [← h']
      exact List.Pairwise.sublist (keptPoints_sublist lines _ pts hk)
        (candidates_pairwise_lt lines)
    · rw [if_neg h2] at h'
      rw [← h']
      exact List.Pairwise.nil

/-! ### C10: result points are vertices carrying the per-x maximum -/

theorem mem_updTC (d : List Pt) (p q : Pt) (hq : q ∈ updTC d p) : q ∈ d ∨ q = p := by
  unfold updTC at hq
  split at hq
  · rcases List.mem_append.mp hq with h1 | h2
    · exact Or.inl h1
    · exact Or.inr (List.mem_singleton.mp h2)
  · split at hq
    · rcases aset_mem d p.1 p.2 q hq with h1 | ⟨h2, -⟩
      · exact Or.inl h1
      · exact Or.inr h2
    · exact Or.inl hq

theorem tcFold_mem : ∀ (pts d : List Pt) (q : Pt),
    q ∈ List.foldl updTC d pts → q ∈ d ∨ q ∈ pts := by
  intro pts
  induction pts with
  | nil => intro d q hq; exact Or.inl hq
  | cons p pts ih =>
    intro d q hq
    rcases ih (updTC d p) q hq with h1 | h2
    · rcases mem_updTC d p q h1 with h3 | h4
      · exact Or.inl h3
      · rw [h4]
        exact Or.inr (List.mem_cons_self p pts)
    · exact Or.inr (List.mem_cons_of_mem p h2)

theorem alook_append_of_none : ∀ (d e : List Pt) (x : ℝ),
    alook d x = none → alook (d ++ e) x = alook e x := by
  intro d
  induction d with
  | nil => intro e x _; rfl
  | cons q d ih =>
    intro e x h
    show (if q.1 = x then some q.2 else alook (d ++ e) x) = alook e x
    by_cases hx : q.1 = x
    · rw [show alook (q :: d) x = if q.1 = x then some q.2 else alook d x from rfl,
        if_pos hx] at h
      exact absurd h (by simp)
    · rw [show alook (q :: d) x = if q.1 = x then some q.2 else alook d x from rfl,
        if_neg hx] at h
      rw [if_neg hx]
      exact ih e x h

theorem alook_append_of_some : ∀ (d e : List Pt) (x y : ℝ),
    alook d x = some y → alook (d ++ e) x = some y := by
  intro d
  induction d with
  | nil => intro e x y h; exact absurd h (by simp [alook])
  | cons q d ih =>
    intro e x y h
    show (if q.1 = x then some q.2 else alook (d ++ e) x) = some y
    rw [show alook (q :: d) x = if q.1 = x then some q.2 else alook d x from rfl] at h
    by_cases hx : q.1 = x
    · rw [if_pos hx] at h
      rw [if_pos hx]
      exact h
    · rw [if_neg hx] at h
      rw [if_neg hx]
      exact ih e x y h

theorem alook_aset_self : ∀ (d : List Pt) (k v y0 : ℝ),
    alook d k = some y0 → alook (aset d k v) k = some v := by
  intro d
  induction d with
  | nil => intro k v y0 h; exact absurd h (by simp [alook])
  | cons q d ih =>
    intro k v y0 h
    rw [show alook (q :: d) k = if q.1 = k then some q.2 else alook d k from rfl] at h
    unfold aset
    by_cases hq : q.1 = k
    · rw [if_pos hq]
      show (if k = k then some v else alook d k) = some v
      rw [if_pos rfl]
    · rw [if_neg hq]
      show (if q.1 = k then some q.2 else alook (aset d k v) k) = some v
      rw [if_neg hq]
      rw [if_neg hq] at h
      exact ih k v y0 h

theorem alook_aset_other : ∀ (d : List Pt) (k v x : ℝ),
    x ≠ k → alook (aset d k v) x = alook d x := by
  intro d
  induction d with
  | nil => intro k v x _; rfl
  | cons q d ih =>
    intro k v x hx
    unfold aset
    by_cases hq : q.1 = k
    · rw [if_pos hq]
      show (if k = x then some v else alook d x) =
        (if q.1 = x then some q.2 else alook d x)
      rw [if_neg (fun hc => hx hc.symm)]
      rw [if_neg (by rw [hq]; exact fun hc => hx hc.symm)]
    · rw [if_neg hq]
      show (if q.1 = x then some q.2 else alook (aset d k v) x) =
        (if q.1 = x then some q.2 else alook d x)
      by_cases hqx : q.1 = x
      · rw [if_pos hqx, if_pos hqx]
      · rw [if_neg hqx, if_neg hqx]
        exact ih k v x hx

theorem omaxF_some (a y : ℝ) : omaxF (some a) y = if a < y then some y else some a := rfl

theorem alook_updTC (d : List Pt) (p : Pt) (x : ℝ) :
    alook (updTC d p) x = if p.1 = x then omaxF (alook d x) p.2 else alook d x := by
  unfold updTC
  cases hl : alook d p.1 with
  | none =>
    show alook (d ++ [p]) x = _
    by_cases he : p.1 = x
    · rw [if_pos he, ← he]
      rw [alook_append_of_none d [p] p.1 hl, hl]
      show (if p.1 = p.1 then some p.2 else alook [] p.1) = omaxF none p.2
      rw [if_pos rfl]
      rfl
    · rw [if_neg he]
      cases hdx : alook d x with
      | none =>
        rw [alook_append_of_none d [p] x hdx]
        show (if p.1 = x then some p.2 else alook [] x) = none
        rw [if_neg he]
        rfl
      | some y =>
        rw [alook_append_of_some d [p] x y hdx]
  | some y0 =>
    show alook (if y0 < p.2 then aset d p.1 p.2 else d) x = _
    by_cases hlt : y0 < p.2
    · rw [if_pos hlt]
      by_cases he : p.1 = x
      · rw [if_pos he, ← he, alook_aset_self d p.1 p.2 y0 hl, hl]
        rw [omaxF_some, if_pos hlt]
      · rw [if_neg he, alook_aset_other d p.1 p.2 x (fun hc => he hc.symm)]
    · rw [if_neg hlt]
      by_cases he : p.1 = x
      · rw [if_pos he, ← he, hl]
        rw [omaxF_some, if_neg hlt]
      · rw [if_neg he]

theorem alook_tcFold : ∀ (pts d : List Pt) (x : ℝ),
    alook (List.foldl updTC d pts) x = collect pts x (alook d x) := by
  intro pts
  induction pts with
  | nil => intro d x; rfl
  | cons p pts ih =>
    intro d x
    show alook (List.foldl updTC (updTC d p) pts) x = collect (p :: pts) x (alook d x)
    rw [ih (updTC d p) x, alook_updTC]
    rfl

theorem alook_of_mem : ∀ (d : List Pt), d.Pairwise (fun a b : Pt => a.1 ≠ b.1) →
    ∀ p : Pt, p ∈ d → alook d p.1 = some p.2 := by
  intro d
  induction d with
  | nil => intro _ p hp; simp at hp
  | cons q d ih =>
    intro h p hp
    rw [List.pairwise_cons] at h
    rcases List.mem_cons.mp hp with heq | hp'
    · rw [heq]
      show (if q.1 = q.1 then some q.2 else alook d q.1) = some q.2
      rw [if_pos rfl]
    · show (if q.1 = p.1 then some q.2 else alook d p.1) = some p.2
      rw [if_neg (h.1 p hp')]
      exact ih h.2 p hp'

theorem omaxF_le (o : Option ℝ) (y : ℝ) : ∃ w, omaxF o y = some w ∧ y ≤ w := by
  cases o with
  | none => exact ⟨y, rfl, le_refl y⟩
  | some a =>
    by_cases h : a < y
    · refine ⟨y, ?_, le_refl y⟩
      rw [omaxF_some, if_pos h]
    · refine ⟨a, ?_, le_of_not_lt h⟩
      rw [omaxF_some, if_neg h]

theorem collect_mono : ∀ (pts : List Pt) (x a v : ℝ),
    collect pts x (some a) = some v → a ≤ v := by
  intro pts
  induction pts with
  | nil =>
    intro x a v h
    injection h with h'
    exact le_of_eq h'
  | cons p pts ih =>
    intro x a v h
    rw [show collect (p :: pts) x (some a) =
      collect pts x (if p.1 = x then omaxF (some a) p.2 else some a) from rfl] at h
    by_cases hx : p.1 = x
    · rw [if_pos hx] at h
      by_cases hlt : a < p.2
      · rw [show omaxF (some a) p.2 = some p.2 from by rw [omaxF_some, if_pos hlt]] at h
        exact le_of_lt (lt_of_lt_of_le hlt (ih x p.2 v h))
      · rw [show omaxF (some a) p.2 = some a from by rw [omaxF_some, if_neg hlt]] at h
        exact ih x a v h
    · rw [if_neg hx] at h
      exact ih x a v h

theorem collect_ge : ∀ (pts : List Pt) (x : ℝ) (o : Option ℝ) (v : ℝ),
    collect pts x o = some v → ∀ q ∈ pts, q.1 = x → q.2 ≤ v := by
  intro pts
  induction pts with
  | nil => intro x o v _ q hq; simp at hq
  | cons p pts ih =>
    intro x o v h q hq hqx
    rw [show collect (p :: pts) x o =
      collect pts x (if p.1 = x then omaxF o p.2 else o) from rfl] at h
    rcases List.mem_cons.mp hq with heq | hq'
    · rw [heq] at hqx ⊢
      rw [if_pos hqx] at h
      obtain ⟨w, hw, hpw⟩ := omaxF_le o p.2
      rw [hw] at h
      exact le_trans hpw (collect_mono pts x w v h)
    · exact ih x _ v h q hq' hqx

/-- C10: every point of a result of `buildGroundSurface` is a vertex of
some input profile line (the builder never synthesizes interpolated or
intersection points), and its `y` is the maximum elevation among all
profile-line vertices sharing its `x`. -/
theorem ground_surface_points_from_vertices (lines : List (List Pt)) (res : List Pt)
    (h : buildGroundSurface lines = .ok res) :
    ∀ p ∈ res, (∃ l ∈ lines, p ∈ l) ∧
      ∀ q : Pt, (∃ l ∈ lines, q ∈ l) → q.1 = p.1 → q.2 ≤ p.2 := by
  intro p hp
  have hcand : p ∈ candidates lines := by
    unfold buildGroundSurface at h
    cases hk : keptPoints lines (candidates lines) with
    | error e => rw [hk] at h; simp at h
    | ok pts =>
      rw [hk] at h
      injection h with h'
      have hsub := keptPoints_sublist lines _ pts hk
      by_cases h2 : 2 ≤ pts.length
      · rw [if_pos h2] at h'
        rw [← h'] at hp
        exact hsub.subset hp
      · rw [if_neg h2] at h'
        rw [← h'] at hp
        simp at hp
  have htc : p ∈ tcFold (allPoints lines) :=
    ((List.perm_insertionSort pairLe (tcFold (allPoints lines))).mem_iff).mp hcand
  have hap : p ∈ allPoints lines := by
    rcases tcFold_mem (allPoints lines) [] p htc with h1 | h2
    · simp at h1
    · exact h2
  have hvert : ∃ l ∈ lines, p ∈ l := by
    have hd : p ∈ lines.flatten.dedup :=
      ((List.perm_insertionSort ptKeyLe lines.flatten.dedup).mem_iff).mp hap
    rw [List.mem_dedup] at hd
    exact List.mem_flatten.mp hd
  refine ⟨hvert, ?_⟩
  intro q hq hqx
  have halook : alook (tcFold (allPoints lines)) p.1 = some p.2 :=
    alook_of_mem _ (pairwise_tcFoldAux (allPoints lines) [] List.Pairwise.nil) p htc
  have hcollect : collect (allPoints lines) p.1 none = some p.2 := by
    have e := alook_tcFold (allPoints lines) [] p.1
    rw [show alook ([] : List Pt) p.1 = none from rfl] at e
    rw [← e]
    exact halook
  have hqap : q ∈ allPoints lines := by
    have h1 : q ∈ lines.flatten := List.mem_flatten.mpr hq
    have h2 : q ∈ lines.flatten.dedup := List.mem_dedup.mpr h1
    exact ((List.perm_insertionSort ptKeyLe lines.flatten.dedup).mem_iff).mpr h2
  exact collect_ge (allPoints lines) p.1 none p.2 hcollect q hqap hqx

/-! ### Witness evaluation: the single horizontal line `linesW` -/

theorem segLen_w : segLen ((0 : ℝ), (0 : ℝ)) ((10 : ℝ), (0 : ℝ)) = 10 := by
  unfold segLen
  rw [show ((10 : ℝ) - 0) ^ 2 + ((0 : ℝ) - 0) ^ 2 = 100 by norm_num]
  rw [show (100 : ℝ) = 10 ^ 2 by norm_num, Real.sqrt_sq (by norm_num : (0 : ℝ) ≤ 10)]

theorem candidates_w :
    candidates linesW = [((0 : ℝ), (0 : ℝ)), ((10 : ℝ), (0 : ℝ))] := by
  unfold candidates allPoints linesW
  rw [show ([[((0 : ℝ), (0 : ℝ)), ((10 : ℝ), (0 : ℝ))]] : List (List Pt)).flatten =
    [((0 : ℝ), (0 : ℝ)), ((10 : ℝ), (0 : ℝ))] from by simp]
  rw [List.dedup_cons_of_not_mem (by norm_num [Prod.ext_iff]),
    List.dedup_cons_of_not_mem (by simp), List.dedup_nil]
  rw [insertionSort_pair ptKeyLe _ _ (Or.inl (by norm_num))]
  rw [tcFold_pair _ _ (by norm_num)]
  rw [insertionSort_pair pairLe _ _ (Or.inl (by norm_num))]

theorem checkLines_w_left : checkLines (0 : ℝ) (0 : ℝ) linesW = .ok true := by
  have hparam : segParam ((0 : ℝ), (0 : ℝ)) ((10 : ℝ), (0 : ℝ)) ((0 : ℝ), (0 : ℝ)) = 0 := by
    unfold segParam clip
    norm_num
  have hproj : projectLS [((0 : ℝ), (0 : ℝ)), ((10 : ℝ), (0 : ℝ))] ((0 : ℝ), (0 : ℝ)) = 0 := by
    rw [projectLS_pair, hparam, zero_mul]
  show checkLines (0 : ℝ) (0 : ℝ) [[((0 : ℝ), (0 : ℝ)), ((10 : ℝ), (0 : ℝ))]] = .ok true
  unfold checkLines
  rw [if_neg (show ¬ ([((0 : ℝ), (0 : ℝ)), ((10 : ℝ), (0 : ℝ))] : List Pt).length = 1
    from by simp)]
  rw [polyLen_pair, segLen_w, hproj]
  rw [if_neg (by norm_num)]
  rw [if_pos (Or.inl rfl)]
  rfl

theorem checkLines_w_right : checkLines (10 : ℝ) (0 : ℝ) linesW = .ok true := by
  have hparam : segParam ((0 : ℝ), (0 : ℝ)) ((10 : ℝ), (0 : ℝ)) ((10 : ℝ), (0 : ℝ)) = 1 := by
    unfold segParam clip
    norm_num
  have hproj : projectLS [((0 : ℝ), (0 : ℝ)), ((10 : ℝ), (0 : ℝ))] ((10 : ℝ), (0 : ℝ)) =
      10 := by
    rw [projectLS_pair, hparam, segLen_w, one_mul]
  show checkLines (10 : ℝ) (0 : ℝ) [[((0 : ℝ), (0 : ℝ)), ((10 : ℝ), (0 : ℝ))]] = .ok true
  unfold checkLines
  rw [if_neg (show ¬ ([((0 : ℝ), (0 : ℝ)), ((10 : ℝ), (0 : ℝ))] : List Pt).length = 1
    from by simp)]
  rw [polyLen_pair, segLen_w, hproj]
  rw [if_neg (by norm_num)]
  rw [if_pos (Or.inr rfl)]
  rfl

theorem bgs_w :
    buildGroundSurface linesW = .ok [((0 : ℝ), (0 : ℝ)), ((10 : ℝ), (0 : ℝ))] := by
  unfold buildGroundSurface
  rw [candidates_w]
  rw [keptPoints_cons_true linesW ((0 : ℝ), (0 : ℝ)) _ checkLines_w_left]
  rw [keptPoints_cons_true linesW ((10 : ℝ), (0 : ℝ)) [] checkLines_w_right]
  rfl

/-- C8 witness: on the single horizontal line `linesW` the builder keeps
both vertices and the result has strictly increasing `x`. -/
theorem ground_surface_strictly_increasing_x_witness :
    buildGroundSurface linesW = .ok [((0 : ℝ), (0 : ℝ)), ((10 : ℝ), (0 : ℝ))] ∧
    ([((0 : ℝ), (0 : ℝ)), ((10 : ℝ), (0 : ℝ))] : List Pt).Pairwise
      (fun p q : Pt => p.1 < q.1) :=
  ⟨bgs_w, ground_surface_strictly_increasing_x linesW _ bgs_w⟩

/-- C10 witness: the vertex/maximum property at the concrete result of
`buildGroundSurface` on `linesW`. -/
theorem ground_surface_points_from_vertices_witness :
    buildGroundSurface linesW = .ok [((0 : ℝ), (0 : ℝ)), ((10 : ℝ), (0 : ℝ))] ∧
    ∀ p ∈ ([((0 : ℝ), (0 : ℝ)), ((10 : ℝ), (0 : ℝ))] : List Pt),
      (∃ l ∈ linesW, p ∈ l) ∧
      ∀ q : Pt, (∃ l ∈ linesW, q ∈ l) → q.1 = p.1 → q.2 ≤ p.2 :=
  ⟨bgs_w, ground_surface_points_from_vertices linesW _ bgs_w⟩

end Slope
